import Mathlib

/-!
Verification development for the kaudio streaming Ogg/Opus container code
(`src/ogg_pager.rs` and `src/ogg_opus.rs`).  The Rust code is shallowly
embedded: byte buffers become `List UInt8`, the mutable reader/encoder state
becomes explicit state records threaded through the functions, and fallible
operations return `Except`.
-/

set_option autoImplicit false
set_option maxRecDepth 8000

deriving instance DecidableEq for Except

namespace Kaudio

/-- Errors of the embedded operations, mirroring the variants of
`src/error.rs` that the embedded code can produce (the pager uses
`anyhow::bail!` with messages for the first two, `ogg_opus.rs` uses
`Error::OpusMissingPcm`). -/
inductive KError where
  | oggUnexpectedCapturePattern : KError
  | oggUnsupportedVersion : KError
  | opusMissingPcm : KError
  | opusDecodeBufferTooSmall : KError
  | oggUnexpectedLenForOpusHead : Nat → KError
  | oggUnexpectedSignature : List UInt8 → KError
deriving Repr, DecidableEq

/-! ### Ogg page parser (`src/ogg_pager.rs`) -/

/-- `OggHeader` from `ogg_pager.rs`: the packed 27-byte page header.
Multi-byte fields are stored as `Nat` values decoded little-endian, matching
the `read_unaligned` reinterpretation on a little-endian machine and the Ogg
framing layout documented in the source. -/
structure OggHeader where
  capture_pattern : List UInt8
  version : UInt8
  header_type : UInt8
  granule_position : Nat
  bitstream_serial : Nat
  page_sequence : Nat
  checksum : Nat
  page_segments : UInt8
deriving Repr, DecidableEq

/-- `std::mem::size_of::<OggHeader>()`: 4+1+1+8+4+4+4+1 = 27 bytes
(the struct is `repr(packed)`). -/
def hdrSize : Nat := 27

/-- The capture pattern bytes of the string OggS. -/
def oggSMagic : List UInt8 := [79, 103, 103, 83]

/-- Little-endian read of `n` bytes of `b` starting at offset `off`
(out-of-range bytes read as 0; the caller always has the range in bounds). -/
def readLE (b : List UInt8) : Nat → Nat → Nat
  | _, 0 => 0
  | off, n + 1 => (b.getD off 0).toNat + 256 * readLE b (off + 1) n

/-- Decode the packed `OggHeader` from its 27-byte buffer, field by field at
the offsets of the packed layout. -/
def parseHeader (h : List UInt8) : OggHeader :=
  { capture_pattern := h.take 4
    version := h.getD 4 0
    header_type := h.getD 5 0
    granule_position := readLE h 6 8
    bitstream_serial := readLE h 14 4
    page_sequence := readLE h 18 4
    checksum := readLE h 22 4
    page_segments := h.getD 26 0 }

/-- `Page` from `ogg_pager.rs`: a header plus the segment payloads. -/
structure Page where
  header : OggHeader
  segments : List (List UInt8)
deriving Repr, DecidableEq

/-- The segment-slicing loop of `PageReader::next`: walk the segment table,
taking `slen` bytes from `buf` at the running offset for each entry. -/
def sliceSegs (buf : List UInt8) : Nat → List UInt8 → List (List UInt8)
  | _, [] => []
  | off, slen :: rest =>
      ((buf.drop off).take slen.toNat) :: sliceSegs buf (off + slen.toNat) rest

/-- The `PageReader` state is its backlog buffer `data : Vec<u8>`. -/
def PageReaderSt := List UInt8

/-- `PageReader::next`: attempt to extract one page from the head of the
backlog.  Returns the optional page together with the updated backlog
(the backlog is unchanged on the need-more-data result). -/
def pageNext (b : List UInt8) : Except KError (Option Page × List UInt8) :=
  if b.length < hdrSize then .ok (none, b)
  else
    let hdr := parseHeader (b.take hdrSize)
    if hdr.capture_pattern ≠ oggSMagic then .error .oggUnexpectedCapturePattern
    else if hdr.version ≠ 0 then .error .oggUnsupportedVersion
    else
      let nsegments := hdr.page_segments.toNat
      if b.length < hdrSize + nsegments then .ok (none, b)
      else
        let segment_table := (b.take (hdrSize + nsegments)).drop hdrSize
        let page_size :=
          hdrSize + nsegments + (segment_table.map (fun v => v.toNat)).sum
        if b.length < page_size then .ok (none, b)
        else
          let segments := sliceSegs (b.take page_size) (hdrSize + nsegments) segment_table
          .ok (some ⟨hdr, segments⟩, b.drop page_size)

/-- The segment count declared by the header at the head of backlog `b`. -/
def nsegOf (b : List UInt8) : Nat :=
  (parseHeader (b.take hdrSize)).page_segments.toNat

/-- The segment-length table at the head of backlog `b`. -/
def segTableOf (b : List UInt8) : List UInt8 :=
  (b.take (hdrSize + nsegOf b)).drop hdrSize

/-- The total declared page size at the head of backlog `b`:
header size + segment count + sum of the segment-length bytes. -/
def declaredPageSize (b : List UInt8) : Nat :=
  hdrSize + nsegOf b + ((segTableOf b).map (fun v => v.toNat)).sum

/-- The page extracted from the head of backlog `b` (meaningful when the
backlog holds at least `declaredPageSize b` bytes). -/
def pageOf (b : List UInt8) : Page :=
  ⟨parseHeader (b.take hdrSize),
    sliceSegs (b.take (declaredPageSize b)) (hdrSize + nsegOf b) (segTableOf b)⟩

/-- Characterization of `pageNext` as a plain conditional cascade over the
named head quantities; definitionally equal to `pageNext`. -/
theorem pageNext_eq (b : List UInt8) :
    pageNext b =
      if b.length < hdrSize then .ok (none, b)
      else if (parseHeader (b.take hdrSize)).capture_pattern ≠ oggSMagic then
        .error .oggUnexpectedCapturePattern
      else if (parseHeader (b.take hdrSize)).version ≠ 0 then
        .error .oggUnsupportedVersion
      else if b.length < hdrSize + nsegOf b then .ok (none, b)
      else if b.length < declaredPageSize b then .ok (none, b)
      else .ok (some (pageOf b), b.drop (declaredPageSize b)) := rfl

theorem pageNext_eq_some (b : List UInt8)
    (h1 : hdrSize ≤ b.length)
    (h2 : (parseHeader (b.take hdrSize)).capture_pattern = oggSMagic)
    (h3 : (parseHeader (b.take hdrSize)).version = 0)
    (h4 : hdrSize + nsegOf b ≤ b.length)
    (h5 : declaredPageSize b ≤ b.length) :
    pageNext b = .ok (some (pageOf b), b.drop (declaredPageSize b)) := by
  rw [pageNext_eq, if_neg (not_lt.mpr h1), if_neg (not_not_intro h2),
    if_neg (not_not_intro h3), if_neg (not_lt.mpr h4), if_neg (not_lt.mpr h5)]

theorem pageNext_some_inv {b r : List UInt8} {p : Page}
    (h : pageNext b = .ok (some p, r)) :
    hdrSize ≤ b.length ∧
    (parseHeader (b.take hdrSize)).capture_pattern = oggSMagic ∧
    (parseHeader (b.take hdrSize)).version = 0 ∧
    hdrSize + nsegOf b ≤ b.length ∧
    declaredPageSize b ≤ b.length ∧
    p = pageOf b ∧ r = b.drop (declaredPageSize b) := by
  rw [pageNext_eq] at h
  split_ifs at h with hc1 hc2 hc3 hc4 hc5 <;> simp at h
  obtain ⟨hp, hr⟩ := h
  exact ⟨not_lt.mp hc1, not_not.mp hc2, not_not.mp hc3,
    not_lt.mp hc4, not_lt.mp hc5, hp.symm, hr.symm⟩

theorem nsegOf_append (b s : List UInt8) (h : hdrSize ≤ b.length) :
    nsegOf (b ++ s) = nsegOf b := by
  unfold nsegOf
  rw [List.take_append_of_le_length h]

theorem segTableOf_append (b s : List UInt8) (h : hdrSize ≤ b.length)
    (h4 : hdrSize + nsegOf b ≤ b.length) :
    segTableOf (b ++ s) = segTableOf b := by
  unfold segTableOf
  rw [nsegOf_append b s h, List.take_append_of_le_length (by omega)]

theorem declaredPageSize_append (b s : List UInt8) (h : hdrSize ≤ b.length)
    (h4 : hdrSize + nsegOf b ≤ b.length) :
    declaredPageSize (b ++ s) = declaredPageSize b := by
  unfold declaredPageSize
  rw [nsegOf_append b s h, segTableOf_append b s h h4]

theorem pageOf_append (b s : List UInt8) (h : hdrSize ≤ b.length)
    (h4 : hdrSize + nsegOf b ≤ b.length) (h5 : declaredPageSize b ≤ b.length) :
    pageOf (b ++ s) = pageOf b := by
  unfold pageOf
  rw [List.take_append_of_le_length h, nsegOf_append b s h, segTableOf_append b s h h4,
    declaredPageSize_append b s h h4, List.take_append_of_le_length h5]

/-- Appending more bytes after a complete page does not change the parse:
the same page comes out and the leftover grows by the appended bytes. -/
theorem pageNext_append_some {b r s : List UInt8} {p : Page}
    (h : pageNext b = .ok (some p, r)) :
    pageNext (b ++ s) = .ok (some p, r ++ s) := by
  obtain ⟨h1, h2, h3, h4, h5, hp, hr⟩ := pageNext_some_inv h
  have hlen : b.length ≤ (b ++ s).length := by simp
  rw [pageNext_eq, if_neg (not_lt.mpr (le_trans h1 hlen)),
    List.take_append_of_le_length h1, if_neg (not_not_intro h2),
    if_neg (not_not_intro h3), nsegOf_append b s h1,
    if_neg (not_lt.mpr (le_trans h4 hlen)), declaredPageSize_append b s h1 h4,
    if_neg (not_lt.mpr (le_trans h5 hlen)), pageOf_append b s h1 h4 h5,
    List.drop_append_of_le_length h5, hp, hr]

/-- A format error at the head of the backlog is stable under appending. -/
theorem pageNext_append_error {b s : List UInt8} {e : KError}
    (h : pageNext b = .error e) : pageNext (b ++ s) = .error e := by
  by_cases hc1 : b.length < hdrSize
  · rw [pageNext_eq, if_pos hc1] at h
    simp at h
  have h1 : hdrSize ≤ b.length := not_lt.mp hc1
  have hlen : ¬ (b ++ s).length < hdrSize := not_lt.mpr (le_trans h1 (by simp))
  rw [pageNext_eq, if_neg hc1] at h
  rw [pageNext_eq, if_neg hlen, List.take_append_of_le_length h1]
  by_cases hc2 : (parseHeader (b.take hdrSize)).capture_pattern ≠ oggSMagic
  · rw [if_pos hc2] at h
    rw [if_pos hc2]
    exact h
  rw [if_neg hc2] at h
  rw [if_neg hc2]
  by_cases hc3 : (parseHeader (b.take hdrSize)).version ≠ 0
  · rw [if_pos hc3] at h
    rw [if_pos hc3]
    exact h
  rw [if_neg hc3] at h
  by_cases hc4 : b.length < hdrSize + nsegOf b
  · rw [if_pos hc4] at h
    simp at h
  rw [if_neg hc4] at h
  by_cases hc5 : b.length < declaredPageSize b
  · rw [if_pos hc5] at h
    simp at h
  rw [if_neg hc5] at h
  simp at h

/-- The need-more-data result leaves the backlog unchanged. -/
theorem pageNext_none_inv {b r : List UInt8} (h : pageNext b = .ok (none, r)) :
    r = b := by
  rw [pageNext_eq] at h
  split_ifs at h <;> simp at h <;> exact h.symm

theorem sliceSegs_length (buf : List UInt8) (off : Nat) (t : List UInt8) :
    (sliceSegs buf off t).length = t.length := by
  induction t generalizing off <;> simp [sliceSegs, *]

/-- A successfully parsed page consumed at least the header plus one
table byte per segment from the backlog. -/
theorem pageNext_some_len {b r : List UInt8} {p : Page}
    (h : pageNext b = .ok (some p, r)) :
    r.length + hdrSize + p.segments.length ≤ b.length := by
  obtain ⟨h1, _, _, h4, h5, hp, hr⟩ := pageNext_some_inv h
  subst hp hr
  have htab : (segTableOf b).length = nsegOf b := by
    unfold segTableOf
    rw [List.length_drop, List.length_take]
    omega
  have hsz : hdrSize + nsegOf b ≤ declaredPageSize b := by
    unfold declaredPageSize
    omega
  have hseg : (pageOf b).segments.length = nsegOf b := by
    unfold pageOf
    rw [sliceSegs_length, htab]
  rw [List.length_drop, hseg]
  omega

theorem pageNext_some_lt {b r : List UInt8} {p : Page}
    (h : pageNext b = .ok (some p, r)) : r.length < b.length := by
  have := pageNext_some_len h
  have : 0 < hdrSize := by norm_num [hdrSize]
  omega

/-- Repeatedly call `pageNext` until it reports need-more-data or an error:
the "calling next() to exhaustion" discipline of the spec.  Returns the pages
extracted in order, the remaining backlog, and the error that stopped the
drain, if any. -/
def drainPages (b : List UInt8) : List Page × List UInt8 × Option KError :=
  match h : pageNext b with
  | .error e => ([], b, some e)
  | .ok (none, _) => ([], b, none)
  | .ok (some p, r) => ((p :: (drainPages r).1), (drainPages r).2)
termination_by b.length
decreasing_by exact pageNext_some_lt h

theorem drainPages_eq_error {b : List UInt8} {e : KError}
    (h : pageNext b = .error e) : drainPages b = ([], b, some e) := by
  rw [drainPages.eq_def, h]

theorem drainPages_eq_none {b r : List UInt8}
    (h : pageNext b = .ok (none, r)) : drainPages b = ([], b, none) := by
  rw [drainPages.eq_def, h]

theorem drainPages_eq_some {b r : List UInt8} {p : Page}
    (h : pageNext b = .ok (some p, r)) :
    drainPages b = ((p :: (drainPages r).1), (drainPages r).2) := by
  rw [drainPages.eq_def, h]

/-- The backlog left by a drain is quiescent: draining it again extracts
nothing and stops with the same error status. -/
theorem drainPages_fix (b : List UInt8) :
    drainPages ((drainPages b).2.1) = ([], (drainPages b).2.1, (drainPages b).2.2) := by
  induction b using drainPages.induct with
  | case1 b e hpn =>
      rw [drainPages_eq_error hpn]
      exact drainPages_eq_error hpn
  | case2 b r hpn =>
      rw [drainPages_eq_none hpn]
      exact drainPages_eq_none hpn
  | case3 b p r hpn ih =>
      rw [drainPages_eq_some hpn]
      exact ih

/-- Draining `b ++ s` is draining `b`, then draining the leftover of `b`
with `s` appended. -/
theorem drainPages_append (b s : List UInt8) :
    drainPages (b ++ s) =
      ((drainPages b).1 ++ (drainPages ((drainPages b).2.1 ++ s)).1,
       (drainPages ((drainPages b).2.1 ++ s)).2) := by
  induction b using drainPages.induct with
  | case1 b e hpn =>
      rw [drainPages_eq_error hpn]
      simp
  | case2 b r hpn =>
      rw [drainPages_eq_none hpn]
      simp
  | case3 b p r hpn ih =>
      rw [drainPages_eq_some (pageNext_append_some hpn), drainPages_eq_some hpn, ih]
      simp

/-- Feed the remaining byte sequence to the page reader one byte at a time,
calling `pageNext` to exhaustion after each appended byte, collecting all
pages produced. -/
def feedOneByOne (buf : List UInt8) : List UInt8 → List Page
  | [] => []
  | x :: rest =>
      (drainPages (buf ++ [x])).1 ++
        feedOneByOne ((drainPages (buf ++ [x])).2.1) rest

theorem feedOneByOne_drain (s : List UInt8) :
    ∀ buf, (drainPages buf).1 = [] →
      feedOneByOne buf s = (drainPages (buf ++ s)).1 := by
  induction s with
  | nil =>
      intro buf h
      rw [List.append_nil]
      exact h.symm
  | cons x rest ih =>
      intro buf h
      have hfix := drainPages_fix (buf ++ [x])
      have hq : (drainPages ((drainPages (buf ++ [x])).2.1)).1 = [] := by
        rw [hfix]
      calc feedOneByOne buf (x :: rest)
          = (drainPages (buf ++ [x])).1 ++
              feedOneByOne ((drainPages (buf ++ [x])).2.1) rest := rfl
        _ = (drainPages (buf ++ [x])).1 ++
              (drainPages ((drainPages (buf ++ [x])).2.1 ++ rest)).1 := by
            rw [ih _ hq]
        _ = (drainPages ((buf ++ [x]) ++ rest)).1 := by
            rw [drainPages_append (buf ++ [x]) rest]
        _ = (drainPages (buf ++ (x :: rest))).1 := by
            rw [List.append_assoc, List.singleton_append]

theorem parseHeader_capture (b : List UInt8) :
    (parseHeader (b.take hdrSize)).capture_pattern = b.take 4 := by
  show (b.take hdrSize).take 4 = b.take 4
  rw [List.take_take]
  norm_num [hdrSize]

theorem parseHeader_version (b : List UInt8) :
    (parseHeader (b.take hdrSize)).version = b.getD 4 0 := by
  show (b.take hdrSize).getD 4 0 = b.getD 4 0
  have h4 : (4 : Nat) < hdrSize := by norm_num [hdrSize]
  simp [List.getD, List.getElem?_take, h4]

/-- A complete well-formed single-segment Ogg page (granule 0, serial 0,
sequence 0, one segment of 3 payload bytes), used for concrete checks. -/
def examplePage : List UInt8 :=
  oggSMagic ++ [0, 0] ++ List.replicate 8 0 ++ List.replicate 4 0 ++
    List.replicate 4 0 ++ List.replicate 4 0 ++ [1] ++ [3] ++ [10, 20, 30]

/-- C2: in every state of the page parser where the buffered bytes are fewer
than the complete declared page length — fewer than the fixed header size, or
(past the header validations) fewer than header size plus segment count, or
fewer than the computed total page size — `next()` returns `None`, not an
error and not a page, and leaves the internal backlog byte-for-byte
unchanged, so repeated calls as bytes trickle in never lose, duplicate, or
double-consume data. -/
theorem pager_incomplete_input_returns_none (b : List UInt8) :
    (b.length < hdrSize → pageNext b = .ok (none, b)) ∧
    (hdrSize ≤ b.length →
     (parseHeader (b.take hdrSize)).capture_pattern = oggSMagic →
     (parseHeader (b.take hdrSize)).version = 0 →
     b.length < hdrSize + nsegOf b →
     pageNext b = .ok (none, b)) ∧
    (hdrSize ≤ b.length →
     (parseHeader (b.take hdrSize)).capture_pattern = oggSMagic →
     (parseHeader (b.take hdrSize)).version = 0 →
     b.length < declaredPageSize b →
     pageNext b = .ok (none, b)) := by
  refine ⟨fun h1 => ?_, fun h1 h2 h3 h4 => ?_, fun h1 h2 h3 h5 => ?_⟩
  · rw [pageNext_eq, if_pos h1]
  · rw [pageNext_eq, if_neg (not_lt.mpr h1), if_neg (not_not_intro h2),
      if_neg (not_not_intro h3), if_pos h4]
  · by_cases h4 : b.length < hdrSize + nsegOf b
    · rw [pageNext_eq, if_neg (not_lt.mpr h1), if_neg (not_not_intro h2),
        if_neg (not_not_intro h3), if_pos h4]
    · rw [pageNext_eq, if_neg (not_lt.mpr h1), if_neg (not_not_intro h2),
        if_neg (not_not_intro h3), if_neg h4, if_pos h5]

/-- Witness for C2: a truncated page (29 of its 31 bytes buffered) makes
`next()` return `None` with the backlog untouched. -/
theorem pager_incomplete_input_witness :
    pageNext (examplePage.take 29) = .ok (none, examplePage.take 29) :=
  (pager_incomplete_input_returns_none (examplePage.take 29)).2.2
    (by decide) (by decide) (by decide) (by decide)

/-- Counterexample for C3 as stated: a 4-byte buffer whose bytes are not
OggS makes the very first `next()` call return `None` (await more input),
not the capture-pattern error; likewise a 5-byte buffer starting with OggS
and a nonzero fifth byte (the version position) returns `None`, not the
unsupported-version error.  The validations only run once the fixed 27-byte
header is buffered. -/
theorem pager_malformed_short_counterexample :
    ([88, 88, 88, 88] : List UInt8).take 4 ≠ oggSMagic ∧
    pageNext [88, 88, 88, 88] = .ok (none, [88, 88, 88, 88]) ∧
    (oggSMagic ++ [7]).take 4 = oggSMagic ∧
    (oggSMagic ++ [7]).getD 4 0 ≠ 0 ∧
    pageNext (oggSMagic ++ [7]) = .ok (none, oggSMagic ++ [7]) := by decide

/-- C3 amended: for every input buffer holding at least the fixed 27-byte
header whose first 4 bytes are not OggS, the very first `next()` call fails
with the capture-pattern error; and for every such buffer whose first 4
bytes are OggS but whose version byte is nonzero, `next()` fails with the
unsupported-version error.  (Buffers shorter than the header return `None`
and are validated once the header is complete.) -/
theorem pager_malformed_first_call_fails (b : List UInt8)
    (hlen : hdrSize ≤ b.length) :
    (b.take 4 ≠ oggSMagic → pageNext b = .error .oggUnexpectedCapturePattern) ∧
    (b.take 4 = oggSMagic → b.getD 4 0 ≠ 0 →
      pageNext b = .error .oggUnsupportedVersion) := by
  constructor
  · intro hm
    rw [pageNext_eq, parseHeader_capture b, if_neg (not_lt.mpr hlen), if_pos hm]
  · intro hm hv
    rw [pageNext_eq, parseHeader_capture b, parseHeader_version b,
      if_neg (not_lt.mpr hlen), if_neg (not_not_intro hm), if_pos hv]

/-- Witness for the amended C3 on 27-byte buffers. -/
theorem pager_malformed_witness :
    pageNext (List.replicate 27 (88 : UInt8)) =
      .error .oggUnexpectedCapturePattern ∧
    pageNext (oggSMagic ++ 7 :: List.replicate 22 0) =
      .error .oggUnsupportedVersion :=
  ⟨(pager_malformed_first_call_fails _ (by decide)).1 (by decide),
   (pager_malformed_first_call_fails _ (by decide)).2 (by decide) (by decide)⟩

/-- C4: feeding any finite byte sequence to a fresh page parser one byte at
a time, calling `next()` to exhaustion after each append, produces exactly
the same ordered sequence of pages as appending the whole sequence at once
and calling `next()` to exhaustion. -/
theorem pager_incremental_feed_equivalence (bytes : List UInt8) :
    feedOneByOne [] bytes = (drainPages bytes).1 := by
  have h0 : drainPages ([] : List UInt8) = ([], [], none) :=
    drainPages_eq_none (r := []) rfl
  have h := feedOneByOne_drain bytes [] (by rw [h0])
  simpa using h

/-! ### Ogg packet reassembler (`src/ogg_pager.rs`, `PacketReader`) -/

/-- `PacketReader` state: the wrapped page-reader backlog, the pending
segment accumulator, and the FIFO queue of completed packets (front at the
head of the list). -/
structure PacketReaderSt where
  data : List UInt8
  segments : List (List UInt8)
  packets : List (List UInt8)
deriving Repr, DecidableEq

/-- The per-segment body of the page loop in `PacketReader::next`: push the
segment onto the accumulator; when its length is below 255 the accumulated
segments are concatenated into a completed packet, pushed at the back of the
queue, and the accumulator is cleared. -/
def lacingStep (st : List (List UInt8) × List (List UInt8)) (segment : List UInt8) :
    List (List UInt8) × List (List UInt8) :=
  let segs := st.1 ++ [segment]
  if segment.length < 255 then ([], st.2 ++ [segs.flatten])
  else (segs, st.2)

/-- Process the segments of one page in order. -/
def processSegs (st : List (List UInt8) × List (List UInt8))
    (segs : List (List UInt8)) : List (List UInt8) × List (List UInt8) :=
  segs.foldl lacingStep st

/-- Process a sequence of pages in order, as the
`while let Some(page) = self.page_reader.next()?` loop does. -/
def processPages (st : List (List UInt8) × List (List UInt8))
    (pages : List Page) : List (List UInt8) × List (List UInt8) :=
  pages.foldl (fun st page => processSegs st page.segments) st

/-- `PacketReader::next`: drain all currently parsable pages into the packet
queue, then pop the oldest completed packet.  A parse error is propagated
unchanged (the caller sees only the error; the partially drained state is
not observable through the `Except` result). -/
def packetNext (st : PacketReaderSt) :
    Except KError (Option (List UInt8) × PacketReaderSt) :=
  let res := drainPages st.data
  let proc := processPages (st.segments, st.packets) res.1
  match res.2.2 with
  | some e => .error e
  | none =>
      match proc.2 with
      | [] => .ok (none, ⟨res.2.1, proc.1, []⟩)
      | pkt :: rest => .ok (some pkt, ⟨res.2.1, proc.1, rest⟩)

theorem processSegs_append (st : List (List UInt8) × List (List UInt8))
    (a b : List (List UInt8)) :
    processSegs st (a ++ b) = processSegs (processSegs st a) b := by
  unfold processSegs
  rw [List.foldl_append]

theorem processPages_eq_processSegs (st : List (List UInt8) × List (List UInt8))
    (pages : List Page) :
    processPages st pages = processSegs st ((pages.map Page.segments).flatten) := by
  induction pages generalizing st with
  | nil => rfl
  | cons p rest ih =>
      rw [List.map_cons, List.flatten_cons, processSegs_append]
      show processPages (processSegs st p.segments) rest = _
      exact ih _

/-- Completed packets are only ever appended at the back of the queue, and
at most one packet arises per segment. -/
theorem processSegs_packets_append (segs : List (List UInt8)) :
    ∀ acc pkts, ∃ new, (processSegs (acc, pkts) segs).2 = pkts ++ new ∧
      new.length ≤ segs.length := by
  induction segs with
  | nil => exact fun acc pkts => ⟨[], by simp [processSegs]⟩
  | cons s rest ih =>
      intro acc pkts
      show ∃ new, (processSegs (lacingStep (acc, pkts) s) rest).2 = pkts ++ new ∧ _
      unfold lacingStep
      by_cases hs : s.length < 255
      · simp only [hs, if_pos]
        obtain ⟨new, hnew, hlen⟩ := ih [] (pkts ++ [((acc, pkts).1 ++ [s]).flatten])
        exact ⟨[((acc, pkts).1 ++ [s]).flatten] ++ new,
          by rw [hnew, List.append_assoc], by simpa using Nat.succ_le_succ hlen⟩
      · simp only [hs, if_neg, if_false]
        obtain ⟨new, hnew, hlen⟩ := ih ((acc, pkts).1 ++ [s]) pkts
        exact ⟨new, hnew, Nat.le_succ_of_le hlen⟩

/-- The lacing rule: if all pending and incoming segments have length 255
and the next segment is shorter, exactly one packet is completed — the
concatenation of all of them — and the accumulator is cleared. -/
theorem processSegs_lacing (ss : List (List UInt8)) :
    ∀ acc pkts (t : List UInt8), (∀ s ∈ ss, s.length = 255) → t.length < 255 →
      processSegs (acc, pkts) (ss ++ [t]) =
        ([], pkts ++ [((acc ++ ss) ++ [t]).flatten]) := by
  induction ss with
  | nil =>
      intro acc pkts t _ ht
      show lacingStep (acc, pkts) t = _
      unfold lacingStep
      simp [ht]
  | cons s rest ih =>
      intro acc pkts t hss ht
      have hs : s.length = 255 := hss s (by simp)
      show processSegs (lacingStep (acc, pkts) s) (rest ++ [t]) = _
      unfold lacingStep
      simp only [hs, lt_irrefl, if_neg, if_false]
      rw [ih (acc ++ [s]) pkts t (fun x hx => hss x (by simp [hx])) ht]
      simp

/-- C5: the packet reassembler emits completed packets in page/segment
order, concatenating consecutive segments up to and including the first
segment of length below 255.  Part one: page boundaries are transparent —
processing a sequence of pages equals processing their concatenated segment
stream.  Part two: from any pending accumulator and queue, a run of
length-255 segments closed by a shorter segment completes exactly one
packet, the concatenation of all of them, appended at the back of the FIFO
queue.  Part three: for a packet spanning two pages (page 1 all length-255
segments, page 2 starting with a shorter segment), the first packet the
reassembler emits is the single concatenation of those segments, never
split. -/
theorem reassembler_lacing_spanning_packets :
    (∀ st pages, processPages st pages =
        processSegs st ((pages.map Page.segments).flatten)) ∧
    (∀ acc pkts (ss : List (List UInt8)) (t : List UInt8),
      (∀ s ∈ ss, s.length = 255) → t.length < 255 →
      processSegs (acc, pkts) (ss ++ [t]) =
        ([], pkts ++ [((acc ++ ss) ++ [t]).flatten])) ∧
    (∀ (h1 h2 : OggHeader) (ss : List (List UInt8)) (t : List UInt8)
       (rest : List (List UInt8)),
      (∀ s ∈ ss, s.length = 255) → t.length < 255 →
      (processPages ([], []) [Page.mk h1 ss, Page.mk h2 (t :: rest)]).2.head? =
        some ((ss ++ [t]).flatten)) := by
  refine ⟨processPages_eq_processSegs,
    fun acc pkts ss t hss ht => processSegs_lacing ss acc pkts t hss ht, ?_⟩
  intro h1 h2 ss t rest hss ht
  rw [processPages_eq_processSegs]
  have hsplit : ((([Page.mk h1 ss, Page.mk h2 (t :: rest)]).map
      Page.segments).flatten) = (ss ++ [t]) ++ rest := by
    simp
  rw [hsplit, processSegs_append, processSegs_lacing ss [] [] t hss ht]
  simp only [List.nil_append]
  obtain ⟨new, hnew, -⟩ :=
    processSegs_packets_append rest [] [(ss ++ [t]).flatten]
  rw [hnew]
  rfl

set_option maxRecDepth 4000 in
/-- Witness for C5 at a concrete spanning packet: one 255-byte segment at
the end of page 1 and a 2-byte segment at the start of page 2 come back as
the single concatenated packet. -/
theorem reassembler_spanning_witness :
    (processPages ([], [])
        [Page.mk (parseHeader []) [List.replicate 255 1],
         Page.mk (parseHeader []) [[2, 3]]]).2.head? =
      some (List.replicate 255 1 ++ [2, 3]) := by
  have h := reassembler_lacing_spanning_packets.2.2 (parseHeader []) (parseHeader [])
    [List.replicate 255 1] [2, 3] [] (by decide) (by decide)
  simpa using h

/-- Every page drained from the backlog consumed at least its header and
one table byte per segment. -/
theorem drainPages_len (b : List UInt8) :
    (drainPages b).2.1.length +
      ((drainPages b).1.map (fun p => hdrSize + p.segments.length)).sum ≤
      b.length := by
  induction b using drainPages.induct with
  | case1 b e hpn =>
      rw [drainPages_eq_error hpn]
      simp
  | case2 b r hpn =>
      rw [drainPages_eq_none hpn]
      simp
  | case3 b p r hpn ih =>
      rw [drainPages_eq_some hpn]
      have hlen := pageNext_some_len hpn
      simp only [List.map_cons, List.sum_cons]
      omega

theorem processPages_packets_append (pages : List Page)
    (acc pkts : List (List UInt8)) :
    ∃ new, (processPages (acc, pkts) pages).2 = pkts ++ new ∧
      new.length ≤ ((pages.map Page.segments).flatten).length := by
  rw [processPages_eq_processSegs]
  exact processSegs_packets_append _ acc pkts

/-- Returning a packet strictly shrinks backlog bytes plus queued packets:
the termination measure of the decoder drain loop. -/
theorem packetNext_some_measure {st : PacketReaderSt} {pkt : List UInt8}
    {st' : PacketReaderSt} (h : packetNext st = .ok (some pkt, st')) :
    st'.data.length + st'.packets.length <
      st.data.length + st.packets.length := by
  have hdl := drainPages_len st.data
  simp only [packetNext] at h
  rcases hd : drainPages st.data with ⟨pages, r, err⟩
  rw [hd] at h hdl
  dsimp only at h hdl
  obtain ⟨new, hnew, hnlen⟩ := processPages_packets_append pages st.segments st.packets
  rcases err with - | e
  swap
  · exact absurd h (by simp)
  rcases hp : (processPages (st.segments, st.packets) pages).2 with - | ⟨pkt0, rest⟩
  · rw [hp] at h
    exact absurd h (by simp)
  rw [hp] at h hnew
  simp only [Except.ok.injEq, Prod.mk.injEq, Option.some.injEq] at h
  obtain ⟨-, hst'⟩ := h
  have hb : 1 + rest.length = st.packets.length + new.length := by
    have hl := congrArg List.length hnew
    simp at hl
    omega
  have hT : new.length ≤ (pages.map (fun p => hdrSize + p.segments.length)).sum := by
    refine le_trans hnlen ?_
    rw [List.length_flatten, List.map_map]
    refine List.sum_le_sum ?_
    intro p _
    simp
  subst hst'
  dsimp only
  omega

/-! ### Ogg/Opus encoder (`src/ogg_opus.rs`)

The external `ogg::PacketWriter` is not part of this repository; it is
modelled from the spec (section 4.3).  The external opus codec is an opaque
collaborator (spec section 1) and is passed in as a function. -/

/-- The magic bytes of the string OpusHead. -/
def opusHeadMagic : List UInt8 := [79, 112, 117, 115, 72, 101, 97, 100]

/-- The magic bytes of the string OpusTags. -/
def opusTagsMagic : List UInt8 := [79, 112, 117, 115, 84, 97, 103, 115]

/-- Little-endian encoding of `v` on `w` bytes. -/
def natLE (w v : Nat) : List UInt8 :=
  (List.range w).map (fun i => UInt8.ofNat (v / 256 ^ i % 256))

/-- `write_opus_header`: the OpusHead identification packet — magic,
version 1, channel count 1, pre-skip 3840, input sample rate 48000 Hz,
output gain 0 (Q7.8 dB), channel mapping family 0; multi-byte fields
little-endian. -/
def opusHeadData : List UInt8 :=
  opusHeadMagic ++ [1] ++ [1] ++ natLE 2 3840 ++ natLE 4 48000 ++
    natLE 2 0 ++ [0]

/-- The vendor string KyutaiMoshi written by `write_opus_tags`. -/
def vendorBytes : List UInt8 := [75, 121, 117, 116, 97, 105, 77, 111, 115, 104, 105]

/-- `write_opus_tags`: the OpusTags comment packet — magic, vendor string
length (4 bytes LE), vendor string, tag count 0. -/
def opusTagsData : List UInt8 :=
  opusTagsMagic ++ natLE 4 vendorBytes.length ++ vendorBytes ++ natLE 4 0

/-- `OPUS_ENCODER_FRAME_SIZE` from `ogg_opus.rs`: the fixed codec frame
size in samples. -/
def OPUS_ENCODER_FRAME_SIZE : Nat := 960

/-- A page written by the packet writer: its granule position, page
sequence number, and packet payload. -/
structure WPage where
  granule : Nat
  seq : Nat
  packet : List UInt8
deriving Repr, DecidableEq

/-- Modelled from the spec: the segment-length table the external ogg
`PacketWriter` builds for a packet of length `n` (spec 4.3) — one 255 entry
per full 255-byte chunk, then a terminating entry of the remainder length,
which may be 0. -/
def lacingTable (n : Nat) : List UInt8 :=
  List.replicate (n / 255) 255 ++ [UInt8.ofNat (n % 255)]

/-- Modelled from the spec: serialization of one page as emitted by the
external ogg `PacketWriter` (spec 3, 4.3): the 27-byte header — capture
pattern, version 0, type flags, granule position, the stream serial (42 in
this system), page sequence, checksum, segment count — followed by the
segment table and the packet bytes.  The checksum is not modelled (spec 1
excludes checksum computation) and type flags are 0. -/
def wpageBytes (p : WPage) : List UInt8 :=
  oggSMagic ++ [0, 0] ++ natLE 8 p.granule ++ natLE 4 42 ++ natLE 4 p.seq ++
    natLE 4 0 ++ [UInt8.ofNat (lacingTable p.packet.length).length] ++
    lacingTable p.packet.length ++ p.packet

/-- Modelled from the spec: the external ogg `PacketWriter` state
(spec 4.3): a monotonically incrementing page sequence number and the
retrievable output buffer.  `written` additionally records the pages
emitted, in order; `buf` holds the serialization of the pages written since
the buffer was last taken by the caller. -/
structure PacketWriterSt where
  seq : Nat
  buf : List UInt8
  written : List WPage
deriving Repr, DecidableEq

/-- Modelled from the spec: `write_packet` wraps the packet into one page
stamped with the given granule position (every packet ends its own page in
this system) and appends the serialized page to the output buffer. -/
def write_packet (pw : PacketWriterSt) (data : List UInt8) (granule : Nat) :
    PacketWriterSt :=
  ⟨pw.seq + 1, pw.buf ++ wpageBytes ⟨granule, pw.seq, data⟩,
    pw.written ++ [⟨granule, pw.seq, data⟩]⟩

/-- `Encoder` state from `ogg_opus.rs`: the packet writer, the running
total of samples consumed (`total_data`, used as the granule position), the
precomputed `header_data` bytes, and the queue of not-yet-encoded PCM
samples.  The f32 sample values are opaque to the framing logic and are
modelled as `Int`; the external opus codec is passed to `encode_page` as a
function from one frame of samples to its encoded packet bytes. -/
structure EncoderSt where
  pw : PacketWriterSt
  total_data : Nat
  header_data : List UInt8
  out_pcm : List Int
deriving Repr, DecidableEq

/-- `Encoder::new`: write the OpusHead and OpusTags packets (granule
position 0), each ending its own page, then take the produced bytes as
`header_data`, leaving the writer buffer empty.  The construction of the
external opus codec (which may reject a sample rate) is abstracted away;
the container state does not depend on `sample_rate`. -/
def Encoder.new (sample_rate : Nat) : EncoderSt :=
  let pw0 : PacketWriterSt := ⟨0, [], []⟩
  let pw1 := write_packet pw0 opusHeadData 0
  let pw2 := write_packet pw1 opusTagsData 0
  ⟨⟨pw2.seq, [], pw2.written⟩, 0, pw2.buf, []⟩

/-- The inner pop loop of `encode_page`: pop `n` samples one at a time from
the front of the queue, `none` when the queue runs out early (the path that
raises `OpusMissingPcm` in the source). -/
def popFrame : Nat → List Int → Option (List Int × List Int)
  | 0, l => some ([], l)
  | _ + 1, [] => none
  | n + 1, v :: l =>
      match popFrame n l with
      | none => none
      | some (chunk, rest) => some (v :: chunk, rest)

/-- The chunk loop of `encode_page`: for each of `n` chunks, pop one frame
from the queue, advance `total_data` by the frame length, encode the frame
with the external codec `enc`, and when the encoded size is nonzero write
the packet as one page stamped with the running `total_data` as granule
position, taking the produced page bytes into the return buffer. -/
def encodeChunks (enc : List Int → List UInt8) :
    Nat → EncoderSt → List UInt8 → Except KError (List UInt8 × EncoderSt)
  | 0, st, encoded => .ok (encoded, st)
  | n + 1, st, encoded =>
      match popFrame OPUS_ENCODER_FRAME_SIZE st.out_pcm with
      | none => .error .opusMissingPcm
      | some (chunk, rest) =>
          let st1 : EncoderSt :=
            { st with out_pcm := rest, total_data := st.total_data + chunk.length }
          let bytes := enc chunk
          if 0 < bytes.length then
            let pw := write_packet st1.pw bytes st1.total_data
            encodeChunks enc n { st1 with pw := { pw with buf := [] } }
              (encoded ++ pw.buf)
          else
            encodeChunks enc n st1 encoded

/-- `Encoder::encode_page`: append the new samples to the queue, compute
the number of complete frames available, and drain exactly that many. -/
def encode_page (enc : List Int → List UInt8) (st : EncoderSt)
    (pcm : List Int) : Except KError (List UInt8 × EncoderSt) :=
  let st := { st with out_pcm := st.out_pcm ++ pcm }
  encodeChunks enc (st.out_pcm.length / OPUS_ENCODER_FRAME_SIZE) st []

/-- A sequence of `encode_page` calls on an encoder, keeping the final
state. -/
def encodeCalls (enc : List Int → List UInt8) (st : EncoderSt) :
    List (List Int) → Except KError EncoderSt
  | [] => .ok st
  | pcm :: rest =>
      match encode_page enc st pcm with
      | .error e => .error e
      | .ok (_, st') => encodeCalls enc st' rest

theorem popFrame_eq (n : Nat) :
    ∀ l : List Int, popFrame n l =
      if n ≤ l.length then some (l.take n, l.drop n) else none := by
  induction n with
  | zero =>
      intro l
      simp [popFrame]
  | succ n ih =>
      intro l
      cases l with
      | nil => simp [popFrame]
      | cons v l =>
          rw [show popFrame (n + 1) (v :: l) =
              (match popFrame n l with
               | none => none
               | some (chunk, rest) => some (v :: chunk, rest)) from rfl, ih l]
          by_cases h : n ≤ l.length
          · rw [if_pos h, if_pos (by simpa using h)]
            simp
          · rw [if_neg h, if_neg (by simpa using h)]

/-- One step of the chunk loop when a full frame is available: pop the
frame, and branch on whether the codec produced bytes. -/
theorem encodeChunks_succ (enc : List Int → List UInt8) (n : Nat)
    (st : EncoderSt) (encoded : List UInt8)
    (h1 : OPUS_ENCODER_FRAME_SIZE ≤ st.out_pcm.length) :
    encodeChunks enc (n + 1) st encoded =
      if 0 < (enc (st.out_pcm.take OPUS_ENCODER_FRAME_SIZE)).length then
        encodeChunks enc n
          ⟨⟨st.pw.seq + 1, [],
            st.pw.written ++
              [⟨st.total_data + (st.out_pcm.take OPUS_ENCODER_FRAME_SIZE).length,
                st.pw.seq, enc (st.out_pcm.take OPUS_ENCODER_FRAME_SIZE)⟩]⟩,
           st.total_data + (st.out_pcm.take OPUS_ENCODER_FRAME_SIZE).length,
           st.header_data, st.out_pcm.drop OPUS_ENCODER_FRAME_SIZE⟩
          (encoded ++ (st.pw.buf ++ wpageBytes
            ⟨st.total_data + (st.out_pcm.take OPUS_ENCODER_FRAME_SIZE).length,
             st.pw.seq, enc (st.out_pcm.take OPUS_ENCODER_FRAME_SIZE)⟩))
      else
        encodeChunks enc n
          ⟨st.pw,
           st.total_data + (st.out_pcm.take OPUS_ENCODER_FRAME_SIZE).length,
           st.header_data, st.out_pcm.drop OPUS_ENCODER_FRAME_SIZE⟩ encoded := by
  simp only [encodeChunks, popFrame_eq, if_pos h1, write_packet]

/-- The drain loop of `encode_page` succeeds whenever the queue holds the
`n` requested frames, consumes exactly `n` frames of samples from the front
of the queue, and advances `total_data` by the same amount.  The header
bytes are untouched. -/
theorem encodeChunks_conserve (enc : List Int → List UInt8) (n : Nat) :
    ∀ st encoded, OPUS_ENCODER_FRAME_SIZE * n ≤ st.out_pcm.length →
      ∃ out st', encodeChunks enc n st encoded = .ok (out, st') ∧
        st'.out_pcm = st.out_pcm.drop (OPUS_ENCODER_FRAME_SIZE * n) ∧
        st'.total_data = st.total_data + OPUS_ENCODER_FRAME_SIZE * n ∧
        st'.header_data = st.header_data := by
  induction n with
  | zero =>
      intro st encoded _
      exact ⟨encoded, st, rfl, by simp, by simp, rfl⟩
  | succ n ih =>
      intro st encoded hlen
      have h1 : OPUS_ENCODER_FRAME_SIZE ≤ st.out_pcm.length := by
        simp only [OPUS_ENCODER_FRAME_SIZE] at hlen ⊢
        omega
      have hchunk : (st.out_pcm.take OPUS_ENCODER_FRAME_SIZE).length =
          OPUS_ENCODER_FRAME_SIZE := by
        rw [List.length_take]
        omega
      have hrest : OPUS_ENCODER_FRAME_SIZE * n ≤
          (st.out_pcm.drop OPUS_ENCODER_FRAME_SIZE).length := by
        rw [List.length_drop]
        simp only [OPUS_ENCODER_FRAME_SIZE] at hlen ⊢
        omega
      rw [encodeChunks_succ enc n st encoded h1]
      by_cases hb : 0 < (enc (st.out_pcm.take OPUS_ENCODER_FRAME_SIZE)).length
      · rw [if_pos hb]
        obtain ⟨out, st', hok, ho, ht, hh⟩ :=
          ih ⟨⟨st.pw.seq + 1, [],
                st.pw.written ++
                  [⟨st.total_data + (st.out_pcm.take OPUS_ENCODER_FRAME_SIZE).length,
                    st.pw.seq, enc (st.out_pcm.take OPUS_ENCODER_FRAME_SIZE)⟩]⟩,
              st.total_data + (st.out_pcm.take OPUS_ENCODER_FRAME_SIZE).length,
              st.header_data, st.out_pcm.drop OPUS_ENCODER_FRAME_SIZE⟩
            (encoded ++ (st.pw.buf ++ wpageBytes
              ⟨st.total_data + (st.out_pcm.take OPUS_ENCODER_FRAME_SIZE).length,
               st.pw.seq, enc (st.out_pcm.take OPUS_ENCODER_FRAME_SIZE)⟩)) hrest
        refine ⟨out, st', hok, ?_, ?_, hh⟩
        · rw [ho]
          dsimp only
          rw [List.drop_drop, Nat.mul_succ]
          ring_nf
        · rw [ht]
          dsimp only
          rw [hchunk, Nat.mul_succ]
          omega
      · rw [if_neg hb]
        obtain ⟨out, st', hok, ho, ht, hh⟩ :=
          ih ⟨st.pw,
              st.total_data + (st.out_pcm.take OPUS_ENCODER_FRAME_SIZE).length,
              st.header_data, st.out_pcm.drop OPUS_ENCODER_FRAME_SIZE⟩
            encoded hrest
        refine ⟨out, st', hok, ?_, ?_, hh⟩
        · rw [ho]
          dsimp only
          rw [List.drop_drop, Nat.mul_succ]
          ring_nf
        · rw [ht]
          dsimp only
          rw [hchunk, Nat.mul_succ]
          omega

theorem map_range_succ_shift (f : Nat → Nat) (n : Nat) :
    (List.range (n + 1)).map f = f 0 :: (List.range n).map (fun i => f (i + 1)) := by
  rw [List.range_succ_eq_map, List.map_cons, List.map_map]
  rfl

theorem wpageBytes_length_pos (p : WPage) : 0 < (wpageBytes p).length := by
  simp [wpageBytes]

/-- The drain loop with a codec that never produces empty packets: every
frame yields one written page whose granule position is the running sample
total, so `n` frames append granules `total + FRAME`, `total + 2·FRAME`, …,
`total + n·FRAME` to the writer history, and at least one byte of output
per frame is returned. -/
theorem encodeChunks_pages (enc : List Int → List UInt8)
    (hpos : ∀ c, enc c ≠ []) (n : Nat) :
    ∀ st encoded, OPUS_ENCODER_FRAME_SIZE * n ≤ st.out_pcm.length →
      ∃ out st', encodeChunks enc n st encoded = .ok (out, st') ∧
        st'.pw.written.map WPage.granule =
          st.pw.written.map WPage.granule ++
            (List.range n).map
              (fun i => st.total_data + OPUS_ENCODER_FRAME_SIZE * (i + 1)) ∧
        st'.total_data = st.total_data + OPUS_ENCODER_FRAME_SIZE * n ∧
        encoded.length + n ≤ out.length := by
  induction n with
  | zero =>
      intro st encoded _
      exact ⟨encoded, st, rfl, by simp, by simp, by simp⟩
  | succ n ih =>
      intro st encoded hlen
      have h1 : OPUS_ENCODER_FRAME_SIZE ≤ st.out_pcm.length := by
        simp only [OPUS_ENCODER_FRAME_SIZE] at hlen ⊢
        omega
      have hchunk : (st.out_pcm.take OPUS_ENCODER_FRAME_SIZE).length =
          OPUS_ENCODER_FRAME_SIZE := by
        rw [List.length_take]
        omega
      have hrest : OPUS_ENCODER_FRAME_SIZE * n ≤
          (st.out_pcm.drop OPUS_ENCODER_FRAME_SIZE).length := by
        rw [List.length_drop]
        simp only [OPUS_ENCODER_FRAME_SIZE] at hlen ⊢
        omega
      have hb : 0 < (enc (st.out_pcm.take OPUS_ENCODER_FRAME_SIZE)).length :=
        List.length_pos.mpr (hpos _)
      rw [encodeChunks_succ enc n st encoded h1, if_pos hb]
      obtain ⟨out, st', hok, htr, ht, hl⟩ :=
        ih ⟨⟨st.pw.seq + 1, [],
              st.pw.written ++
                [⟨st.total_data + (st.out_pcm.take OPUS_ENCODER_FRAME_SIZE).length,
                  st.pw.seq, enc (st.out_pcm.take OPUS_ENCODER_FRAME_SIZE)⟩]⟩,
            st.total_data + (st.out_pcm.take OPUS_ENCODER_FRAME_SIZE).length,
            st.header_data, st.out_pcm.drop OPUS_ENCODER_FRAME_SIZE⟩
          (encoded ++ (st.pw.buf ++ wpageBytes
            ⟨st.total_data + (st.out_pcm.take OPUS_ENCODER_FRAME_SIZE).length,
             st.pw.seq, enc (st.out_pcm.take OPUS_ENCODER_FRAME_SIZE)⟩)) hrest
      refine ⟨out, st', hok, ?_, ?_, ?_⟩
      · rw [htr]
        dsimp only
        rw [List.map_append]
        dsimp only [List.map_cons, List.map_nil, WPage.granule]
        rw [map_range_succ_shift
          (fun i => st.total_data + OPUS_ENCODER_FRAME_SIZE * (i + 1)) n]
        rw [List.append_assoc]
        congr 1
        rw [List.singleton_append]
        congr 1
        · rw [hchunk]
          ring
        · refine List.map_congr_left ?_
          intro i _
          rw [hchunk]
          ring
      · rw [ht]
        dsimp only
        rw [hchunk, Nat.mul_succ]
        omega
      · have hw := wpageBytes_length_pos
          ⟨st.total_data + (st.out_pcm.take OPUS_ENCODER_FRAME_SIZE).length,
           st.pw.seq, enc (st.out_pcm.take OPUS_ENCODER_FRAME_SIZE)⟩
        rw [List.length_append, List.length_append] at hl
        omega

/-- C9: the `OpusMissingPcm` internal-consistency error of `encode_page` is
unreachable: the number of chunks drained is the queue length divided by the
frame size, so every pop from the queue during draining succeeds. -/
theorem encoder_missing_pcm_unreachable (enc : List Int → List UInt8)
    (st : EncoderSt) (pcm : List Int) :
    encode_page enc st pcm ≠ .error .opusMissingPcm := by
  have hle : OPUS_ENCODER_FRAME_SIZE *
      ((st.out_pcm ++ pcm).length / OPUS_ENCODER_FRAME_SIZE) ≤
      (st.out_pcm ++ pcm).length := by
    rw [Nat.mul_comm]
    exact Nat.div_mul_le_self _ _
  obtain ⟨out, st', hok, -, -, -⟩ :=
    encodeChunks_conserve enc
      ((st.out_pcm ++ pcm).length / OPUS_ENCODER_FRAME_SIZE)
      { st with out_pcm := st.out_pcm ++ pcm } [] hle
  have hrw : encode_page enc st pcm =
      encodeChunks enc ((st.out_pcm ++ pcm).length / OPUS_ENCODER_FRAME_SIZE)
        { st with out_pcm := st.out_pcm ++ pcm } [] := rfl
  rw [hrw, hok]
  simp

/-- C7: only whole frames are drained by `encode_page`.  With fewer than
one frame queued plus pushed, the call returns empty bytes and every sample
stays queued; on every successful call the remaining queue plus the drained
samples (the number of complete frames, each advancing `total_data`) equals
the samples previously queued plus the samples pushed; and a call that
reaches one full frame returns non-empty bytes (for a codec that never
encodes to zero bytes, as opus does). -/
theorem encoder_whole_frame_draining (enc : List Int → List UInt8)
    (st : EncoderSt) (pcm : List Int) :
    (st.out_pcm.length + pcm.length < OPUS_ENCODER_FRAME_SIZE →
      encode_page enc st pcm =
        .ok ([], { st with out_pcm := st.out_pcm ++ pcm })) ∧
    (∀ out st', encode_page enc st pcm = .ok (out, st') →
      st'.out_pcm.length + OPUS_ENCODER_FRAME_SIZE *
          ((st.out_pcm.length + pcm.length) / OPUS_ENCODER_FRAME_SIZE) =
        st.out_pcm.length + pcm.length ∧
      st'.total_data = st.total_data + OPUS_ENCODER_FRAME_SIZE *
          ((st.out_pcm.length + pcm.length) / OPUS_ENCODER_FRAME_SIZE)) ∧
    ((∀ c, enc c ≠ []) →
      OPUS_ENCODER_FRAME_SIZE ≤ st.out_pcm.length + pcm.length →
      ∀ out st', encode_page enc st pcm = .ok (out, st') → out ≠ []) := by
  have hlapp : (st.out_pcm ++ pcm).length = st.out_pcm.length + pcm.length :=
    List.length_append _ _
  have hrw : encode_page enc st pcm =
      encodeChunks enc ((st.out_pcm ++ pcm).length / OPUS_ENCODER_FRAME_SIZE)
        { st with out_pcm := st.out_pcm ++ pcm } [] := rfl
  have hle : OPUS_ENCODER_FRAME_SIZE *
      ((st.out_pcm ++ pcm).length / OPUS_ENCODER_FRAME_SIZE) ≤
      (st.out_pcm ++ pcm).length := by
    rw [Nat.mul_comm]
    exact Nat.div_mul_le_self _ _
  refine ⟨?_, ?_, ?_⟩
  · intro hlt
    have hn : (st.out_pcm ++ pcm).length / OPUS_ENCODER_FRAME_SIZE = 0 :=
      Nat.div_eq_of_lt (by rw [hlapp]; exact hlt)
    rw [hrw, hn]
    rfl
  · intro out st' h
    obtain ⟨out0, st0, hok, ho, ht, -⟩ :=
      encodeChunks_conserve enc
        ((st.out_pcm ++ pcm).length / OPUS_ENCODER_FRAME_SIZE)
        { st with out_pcm := st.out_pcm ++ pcm } [] hle
    rw [hrw, hok] at h
    simp only [Except.ok.injEq, Prod.mk.injEq] at h
    obtain ⟨-, hst⟩ := h
    subst hst
    constructor
    · rw [ho]
      dsimp only
      rw [List.length_drop, hlapp]
      rw [hlapp] at hle
      omega
    · rw [ht, hlapp]
  · intro hpos hF out st' h
    have hn1 : 1 ≤ (st.out_pcm ++ pcm).length / OPUS_ENCODER_FRAME_SIZE := by
      rw [hlapp]
      exact (Nat.one_le_div_iff (by norm_num [OPUS_ENCODER_FRAME_SIZE])).mpr hF
    obtain ⟨out0, st0, hok, -, -, hl⟩ :=
      encodeChunks_pages enc hpos
        ((st.out_pcm ++ pcm).length / OPUS_ENCODER_FRAME_SIZE)
        { st with out_pcm := st.out_pcm ++ pcm } [] hle
    rw [hrw, hok] at h
    simp only [Except.ok.injEq, Prod.mk.injEq] at h
    obtain ⟨hout, -⟩ := h
    subst hout
    intro hnil
    rw [hnil] at hl
    simp only [List.length_nil] at hl
    omega

/-- The drained state of the first witness call: 500 samples queued, no
frame drained yet. -/
def encFirstCallSt : EncoderSt :=
  { Encoder.new 48000 with out_pcm := List.replicate 500 0 }

/-- The result of the second witness call, which crosses the frame
boundary. -/
def encSecondCallRes : List UInt8 × EncoderSt :=
  (encode_page (fun _ => [1]) encFirstCallSt
      (List.replicate 500 0)).toOption.getD ([], encFirstCallSt)

/-- Witness for C7: a 500-sample call on a fresh encoder returns empty
bytes with all samples queued; the following 500-sample call crosses the
960-sample frame boundary and returns non-empty bytes. -/
theorem encoder_whole_frame_witness :
    encode_page (fun _ => [1]) (Encoder.new 48000) (List.replicate 500 0) =
      .ok ([], encFirstCallSt) ∧
    encode_page (fun _ => [1]) encFirstCallSt (List.replicate 500 0) =
      .ok encSecondCallRes ∧
    encSecondCallRes.1 ≠ [] :=
  ⟨(encoder_whole_frame_draining (fun _ => [1]) (Encoder.new 48000)
      (List.replicate 500 0)).1 (by decide),
   by rfl,
   (encoder_whole_frame_draining (fun _ => [1]) encFirstCallSt
      (List.replicate 500 0)).2.2 (fun c => by simp) (by decide)
      encSecondCallRes.1 encSecondCallRes.2 (by rfl)⟩

theorem map_range_add (f : Nat → Nat) (m n : Nat) :
    (List.range (m + n)).map f =
      (List.range m).map f ++ (List.range n).map (fun i => f (m + i)) := by
  rw [List.range_add, List.map_append, List.map_map]
  rfl

/-- Invariant of a call sequence: after `m` frames in total, the writer
history holds the two granule-0 header pages followed by one page per frame
with granules FRAME, 2·FRAME, …, m·FRAME, and `total_data = m·FRAME`. -/
theorem encodeCalls_granules (enc : List Int → List UInt8)
    (hpos : ∀ c, enc c ≠ []) (calls : List (List Int)) :
    ∀ st m, st.total_data = OPUS_ENCODER_FRAME_SIZE * m →
      st.pw.written.map WPage.granule =
        [0, 0] ++ (List.range m).map
          (fun i => OPUS_ENCODER_FRAME_SIZE * (i + 1)) →
      ∀ st', encodeCalls enc st calls = .ok st' →
      ∃ m', st'.total_data = OPUS_ENCODER_FRAME_SIZE * m' ∧
        st'.pw.written.map WPage.granule =
          [0, 0] ++ (List.range m').map
            (fun i => OPUS_ENCODER_FRAME_SIZE * (i + 1)) := by
  induction calls with
  | nil =>
      intro st m h1 h2 st' h
      have hst : st = st' := by
        simpa [encodeCalls] using h
      subst hst
      exact ⟨m, h1, h2⟩
  | cons pcm rest ih =>
      intro st m h1 h2 st' h
      have hle : OPUS_ENCODER_FRAME_SIZE *
          ((st.out_pcm ++ pcm).length / OPUS_ENCODER_FRAME_SIZE) ≤
          (st.out_pcm ++ pcm).length := by
        rw [Nat.mul_comm]
        exact Nat.div_mul_le_self _ _
      obtain ⟨out, st1, hok, htr, ht, -⟩ :=
        encodeChunks_pages enc hpos
          ((st.out_pcm ++ pcm).length / OPUS_ENCODER_FRAME_SIZE)
          { st with out_pcm := st.out_pcm ++ pcm } [] hle
      have hpage : encode_page enc st pcm = .ok (out, st1) := hok
      rw [show encodeCalls enc st (pcm :: rest) =
          (match encode_page enc st pcm with
           | .error e => .error e
           | .ok (_, st') => encodeCalls enc st' rest) from rfl, hpage] at h
      refine ih st1 (m + (st.out_pcm ++ pcm).length / OPUS_ENCODER_FRAME_SIZE)
        ?_ ?_ st' h
      · rw [ht]
        dsimp only
        rw [h1, Nat.mul_add]
      · rw [htr]
        dsimp only
        rw [h2, h1,
          map_range_add (fun i => OPUS_ENCODER_FRAME_SIZE * (i + 1)) m
            ((st.out_pcm ++ pcm).length / OPUS_ENCODER_FRAME_SIZE),
          List.append_assoc]
        congr 2
        refine List.map_congr_left ?_
        intro i _
        ring

/-- C6: across every sequence of `encode_page` calls on a fresh encoder
(with a codec that never encodes a frame to zero bytes, as opus does), the
granule positions stamped on the pages those calls produce — the writer
history past the two header pages — are non-decreasing, and between
consecutive produced pages the granule position grows by exactly one frame
of samples. -/
theorem encoder_granule_steps (sample_rate : Nat)
    (enc : List Int → List UInt8) (calls : List (List Int)) (st' : EncoderSt)
    (hpos : ∀ c, enc c ≠ [])
    (h : encodeCalls enc (Encoder.new sample_rate) calls = .ok st') :
    ∀ i, i + 1 < ((st'.pw.written.drop 2).map WPage.granule).length →
      ((st'.pw.written.drop 2).map WPage.granule).getD i 0 ≤
        ((st'.pw.written.drop 2).map WPage.granule).getD (i + 1) 0 ∧
      ((st'.pw.written.drop 2).map WPage.granule).getD (i + 1) 0 =
        ((st'.pw.written.drop 2).map WPage.granule).getD i 0 +
          OPUS_ENCODER_FRAME_SIZE := by
  obtain ⟨m', ht, htr⟩ :=
    encodeCalls_granules enc hpos calls (Encoder.new sample_rate) 0
      (by rfl) (by rfl) st' h
  have hdrop : (st'.pw.written.drop 2).map WPage.granule =
      (List.range m').map (fun i => OPUS_ENCODER_FRAME_SIZE * (i + 1)) := by
    rw [List.map_drop, htr]
    rfl
  rw [hdrop]
  intro i hi
  rw [List.length_map, List.length_range] at hi
  have hg : ∀ j, j < m' →
      ((List.range m').map
        (fun i => OPUS_ENCODER_FRAME_SIZE * (i + 1))).getD j 0 =
      OPUS_ENCODER_FRAME_SIZE * (j + 1) := by
    intro j hj
    simp [List.getD, List.getElem?_map, List.getElem?_range, hj]
  rw [hg i (by omega), hg (i + 1) (by omega)]
  constructor
  · exact Nat.mul_le_mul_left _ (by omega)
  · ring

/-- The encoder state after two one-frame witness calls. -/
def granuleWitnessSt : EncoderSt :=
  (encodeCalls (fun _ => [1]) (Encoder.new 48000)
      [List.replicate 960 0, List.replicate 960 0]).toOption.getD
    (Encoder.new 48000)

/-- Witness for C6: two calls pushing one frame of samples each produce two
pages, and the second granule is the first plus one frame. -/
theorem encoder_granule_witness :
    encodeCalls (fun _ => [1]) (Encoder.new 48000)
      [List.replicate 960 0, List.replicate 960 0] = .ok granuleWitnessSt ∧
    0 + 1 < ((granuleWitnessSt.pw.written.drop 2).map WPage.granule).length ∧
    ((granuleWitnessSt.pw.written.drop 2).map WPage.granule).getD 1 0 =
      ((granuleWitnessSt.pw.written.drop 2).map WPage.granule).getD 0 0 +
        OPUS_ENCODER_FRAME_SIZE :=
  ⟨by rfl, by decide,
   (encoder_granule_steps 48000 (fun _ => [1])
      [List.replicate 960 0, List.replicate 960 0]
      granuleWitnessSt (fun c => by simp) (by rfl) 0 (by decide)).2⟩

/-- Counterexample for C1 as stated: `header_data` does not begin with
OpusHead — it begins with the Ogg page capture pattern OggS; the OpusHead
bytes are the payload of the first page, at offset 28. -/
theorem encoder_header_counterexample :
    (Encoder.new 24000).header_data ≠ [] ∧
    (Encoder.new 24000).header_data.take 8 ≠ opusHeadMagic ∧
    (Encoder.new 24000).header_data.take 4 = oggSMagic := by decide

/-- C1 amended: for every constructed encoder, `header_data()` before any
`encode_page` call returns a non-empty byte sequence that begins with an
Ogg page (capture pattern OggS) whose payload begins with the OpusHead
bytes, found at offset 28 (27-byte page header plus 1 segment-table
byte). -/
theorem encoder_header_ogg_wrapped (sample_rate : Nat) :
    (Encoder.new sample_rate).header_data ≠ [] ∧
    (Encoder.new sample_rate).header_data.take 4 = oggSMagic ∧
    ((Encoder.new sample_rate).header_data.drop 28).take 8 = opusHeadMagic := by
  have h0 : (Encoder.new 0).header_data ≠ [] ∧
      (Encoder.new 0).header_data.take 4 = oggSMagic ∧
      ((Encoder.new 0).header_data.drop 28).take 8 = opusHeadMagic := by decide
  exact h0

/-- `OpusHead` from `ogg_opus.rs`: the packed 19-byte identification
header.  `pre_skip` (u16), `sample_rate` (u32) and `output_gain` (i16, kept
as its raw little-endian 16-bit value) are decoded little-endian, matching
the `read_unaligned` reinterpretation on a little-endian machine. -/
structure OpusHead where
  magic_signature : List UInt8
  version : UInt8
  channel_count : UInt8
  pre_skip : Nat
  sample_rate : Nat
  output_gain : Nat
  mapping_family : UInt8
deriving Repr, DecidableEq

/-- `std::mem::size_of::<OpusHead>()`: 8+1+1+2+4+2+1 = 19 bytes. -/
def opusHeadSize : Nat := 19

/-- `OpusHead::from_slice`: require exactly 19 bytes, reinterpret them as
the packed header, and validate the magic signature. -/
def OpusHead.from_slice (data : List UInt8) : Except KError OpusHead :=
  if data.length ≠ opusHeadSize then
    .error (.oggUnexpectedLenForOpusHead data.length)
  else
    let head : OpusHead :=
      { magic_signature := data.take 8
        version := data.getD 8 0
        channel_count := data.getD 9 0
        pre_skip := readLE data 10 2
        sample_rate := readLE data 12 4
        output_gain := readLE data 16 2
        mapping_family := data.getD 18 0 }
    if head.magic_signature ≠ opusHeadMagic then
      .error (.oggUnexpectedSignature head.magic_signature)
    else .ok head

/-- C10: for every sample rate passed to `Encoder::new`, the OpusHead
packet embedded in `header_data` (its 19 bytes sit at offset 28, after the
first page header and segment table) always declares the same fixed
fields — version 1, channel count 1, pre-skip 3840, input sample rate
48000 Hz, output gain 0, mapping family 0 — regardless of the sample rate
the encoder was constructed with. -/
theorem encoder_opus_head_fixed_fields (sr sr' : Nat) :
    (Encoder.new sr).header_data = (Encoder.new sr').header_data ∧
    OpusHead.from_slice
        (((Encoder.new sr).header_data.drop 28).take opusHeadSize) =
      .ok ⟨opusHeadMagic, 1, 1, 3840, 48000, 0, 0⟩ := by
  constructor
  · rfl
  · have h0 : OpusHead.from_slice
        (((Encoder.new 0).header_data.drop 28).take opusHeadSize) =
        .ok ⟨opusHeadMagic, 1, 1, 3840, 48000, 0, 0⟩ := by decide
    exact h0

/-! ### Synchronous decoder (`src/ogg_opus.rs`, `Decoder`) -/

/-- `Decoder` state from `ogg_opus.rs`: the packet reassembler, the
fixed-capacity PCM buffer, the write offset into it, and the flush
threshold.  Sample values are opaque and modelled as `Int`; the external
opus codec is passed to `decode` as a function from packet bytes to the
samples it writes. -/
structure DecoderSt where
  pr : PacketReaderSt
  pcm_buf : List Int
  size_in_buf : Nat
  flush_every_n_samples : Nat
deriving Repr, DecidableEq

/-- `Decoder::new`: a zeroed PCM buffer of `flush_every_n_samples` plus a
five-second safety margin, offset 0. -/
def Decoder.new (sample_rate flush_every_n_samples : Nat) : DecoderSt :=
  ⟨⟨[], [], []⟩,
    List.replicate (flush_every_n_samples + sample_rate * 5) 0, 0,
    flush_every_n_samples⟩

/-- Writing the decoded samples into the PCM buffer at the current offset
(`decode_float` writes into `pcm_buf[size_in_buf..]`). -/
def writeAt (buf : List Int) (off : Nat) (samples : List Int) : List Int :=
  buf.take off ++ samples ++ buf.drop (off + samples.length)

/-- The packet drain loop of `Decoder::decode`: pop every currently
available packet; skip those whose bytes start with OpusHead or OpusTags;
decode the others into the PCM buffer at the write offset, advancing the
offset.  `dec` abstracts the external opus `decode_float`; a packet whose
samples do not fit the remaining buffer is the codec buffer-too-small
error. -/
def decodeLoop (dec : List UInt8 → Except KError (List Int))
    (st : DecoderSt) : Except KError DecoderSt :=
  match h : packetNext st.pr with
  | .error e => .error e
  | .ok (none, pr') => .ok { st with pr := pr' }
  | .ok (some packet, pr') =>
      if packet.take 8 = opusHeadMagic ∨ packet.take 8 = opusTagsMagic then
        decodeLoop dec { st with pr := pr' }
      else
        match dec packet with
        | .error e => .error e
        | .ok samples =>
            if st.pcm_buf.length < st.size_in_buf + samples.length then
              .error .opusDecodeBufferTooSmall
            else
              decodeLoop dec
                { st with
                  pr := pr'
                  pcm_buf := writeAt st.pcm_buf st.size_in_buf samples
                  size_in_buf := st.size_in_buf + samples.length }
termination_by st.pr.data.length + st.pr.packets.length
decreasing_by
  · exact packetNext_some_measure h
  · exact packetNext_some_measure h

/-- `Decoder::decode`: append the bytes, drain all available packets, then
flush the filled prefix when the offset has reached the threshold,
resetting the offset; otherwise return nothing and keep the offset. -/
def decode (dec : List UInt8 → Except KError (List Int)) (st : DecoderSt)
    (data : List UInt8) : Except KError (Option (List Int) × DecoderSt) :=
  match decodeLoop dec
      { st with pr := { st.pr with data := st.pr.data ++ data } } with
  | .error e => .error e
  | .ok st' =>
      if st'.flush_every_n_samples ≤ st'.size_in_buf then
        .ok (some (st'.pcm_buf.take st'.size_in_buf),
          { st' with size_in_buf := 0 })
      else .ok (none, st')

theorem decodeLoop_eq_none {dec : List UInt8 → Except KError (List Int)}
    {st : DecoderSt} {pr' : PacketReaderSt}
    (h : packetNext st.pr = .ok (none, pr')) :
    decodeLoop dec st = .ok { st with pr := pr' } := by
  rw [decodeLoop.eq_def, h]

theorem decodeLoop_eq_some {dec : List UInt8 → Except KError (List Int)}
    {st : DecoderSt} {packet : List UInt8} {pr' : PacketReaderSt}
    (h : packetNext st.pr = .ok (some packet, pr')) :
    decodeLoop dec st =
      if packet.take 8 = opusHeadMagic ∨ packet.take 8 = opusTagsMagic then
        decodeLoop dec { st with pr := pr' }
      else
        match dec packet with
        | .error e => .error e
        | .ok samples =>
            if st.pcm_buf.length < st.size_in_buf + samples.length then
              .error .opusDecodeBufferTooSmall
            else
              decodeLoop dec
                { st with
                  pr := pr'
                  pcm_buf := writeAt st.pcm_buf st.size_in_buf samples
                  size_in_buf := st.size_in_buf + samples.length } := by
  rw [decodeLoop.eq_def, h]

theorem decodeLoop_eq_dec {dec : List UInt8 → Except KError (List Int)}
    {st : DecoderSt} {packet : List UInt8} {pr' : PacketReaderSt}
    {samples : List Int}
    (h : packetNext st.pr = .ok (some packet, pr'))
    (hskip : ¬(packet.take 8 = opusHeadMagic ∨ packet.take 8 = opusTagsMagic))
    (hdec : dec packet = .ok samples) :
    decodeLoop dec st =
      if st.pcm_buf.length < st.size_in_buf + samples.length then
        .error .opusDecodeBufferTooSmall
      else
        decodeLoop dec
          { st with
            pr := pr'
            pcm_buf := writeAt st.pcm_buf st.size_in_buf samples
            size_in_buf := st.size_in_buf + samples.length } := by
  rw [decodeLoop_eq_some h, if_neg hskip, hdec]

theorem decodeLoop_eq_dec_error {dec : List UInt8 → Except KError (List Int)}
    {st : DecoderSt} {packet : List UInt8} {pr' : PacketReaderSt} {e : KError}
    (h : packetNext st.pr = .ok (some packet, pr'))
    (hskip : ¬(packet.take 8 = opusHeadMagic ∨ packet.take 8 = opusTagsMagic))
    (hdec : dec packet = .error e) :
    decodeLoop dec st = .error e := by
  rw [decodeLoop_eq_some h, if_neg hskip, hdec]

theorem writeAt_length {buf : List Int} {off : Nat} {samples : List Int}
    (h : off + samples.length ≤ buf.length) :
    (writeAt buf off samples).length = buf.length := by
  unfold writeAt
  rw [List.length_append, List.length_append, List.length_take,
    List.length_drop]
  omega

/-- The drain loop preserves the flush threshold, the buffer capacity, and
the offset-within-capacity invariant. -/
theorem decodeLoop_inv (dec : List UInt8 → Except KError (List Int))
    (stF : DecoderSt) :
    ∀ st, decodeLoop dec st = .ok stF →
      st.size_in_buf ≤ st.pcm_buf.length →
      stF.size_in_buf ≤ stF.pcm_buf.length ∧
      stF.flush_every_n_samples = st.flush_every_n_samples := by
  intro st
  induction st using decodeLoop.induct dec with
  | case1 st e hpn =>
      intro h _
      rw [decodeLoop.eq_def, hpn] at h
      exact absurd h (by simp)
  | case2 st pr' hpn =>
      intro h hsz
      rw [decodeLoop_eq_none hpn] at h
      simp only [Except.ok.injEq] at h
      subst h
      exact ⟨hsz, rfl⟩
  | case3 st packet pr' hpn hskip ih =>
      intro h hsz
      rw [decodeLoop_eq_some hpn, if_pos hskip] at h
      exact ih h hsz
  | case4 st packet pr' hpn hskip e hdec =>
      intro h _
      rw [decodeLoop_eq_dec_error hpn hskip hdec] at h
      exact absurd h (by simp)
  | case5 st packet pr' hpn hskip samples hdec hfit =>
      intro h _
      rw [decodeLoop_eq_dec hpn hskip hdec, if_pos hfit] at h
      exact absurd h (by simp)
  | case6 st packet pr' hpn hskip samples hdec hfit ih =>
      intro h hsz
      rw [decodeLoop_eq_dec hpn hskip hdec, if_neg hfit] at h
      have hfit' : st.size_in_buf + samples.length ≤ st.pcm_buf.length :=
        not_lt.mp hfit
      refine ih h ?_
      dsimp only
      rw [writeAt_length hfit']
      exact hfit'

theorem decode_eq_ok {dec : List UInt8 → Except KError (List Int)}
    {st : DecoderSt} {data : List UInt8} {stD : DecoderSt}
    (hloop : decodeLoop dec
        { st with pr := { st.pr with data := st.pr.data ++ data } } = .ok stD) :
    decode dec st data =
      if stD.flush_every_n_samples ≤ stD.size_in_buf then
        .ok (some (stD.pcm_buf.take stD.size_in_buf),
          { stD with size_in_buf := 0 })
      else .ok (none, stD) := by
  unfold decode
  rw [hloop]

/-- C8: for every `Decoder::decode` call, once all currently available
packets are drained (packets with an OpusHead or OpusTags magic are
skipped) into the drained state `stD`, the call returns the filled prefix
of the PCM buffer — whose length equals the write offset — exactly when the
offset has reached or exceeded `flush_every_n_samples`, and the offset then
resets to 0; otherwise it returns `None` and the offset is retained for the
next call. -/
theorem decoder_flush_threshold (dec : List UInt8 → Except KError (List Int))
    (st : DecoderSt) (data : List UInt8) (stD : DecoderSt)
    (hloop : decodeLoop dec
        { st with pr := { st.pr with data := st.pr.data ++ data } } = .ok stD)
    (hsz : st.size_in_buf ≤ st.pcm_buf.length) :
    (stD.flush_every_n_samples ≤ stD.size_in_buf →
      decode dec st data =
        .ok (some (stD.pcm_buf.take stD.size_in_buf),
          { stD with size_in_buf := 0 }) ∧
      (stD.pcm_buf.take stD.size_in_buf).length = stD.size_in_buf) ∧
    (stD.size_in_buf < stD.flush_every_n_samples →
      decode dec st data = .ok (none, stD)) := by
  have hinv := decodeLoop_inv dec stD _ hloop hsz
  constructor
  · intro hge
    constructor
    · rw [decode_eq_ok hloop, if_pos hge]
    · rw [List.length_take]
      have := hinv.1
      omega
  · intro hlt
    rw [decode_eq_ok hloop, if_neg (not_le.mpr hlt)]

/-- A decoder state whose one-sample buffer prefix is already filled, with
flush threshold one sample. -/
def decWitnessSt : DecoderSt := ⟨⟨[], [], []⟩, [5], 1, 1⟩

/-- Witness for C8: a decoder whose buffer prefix of one sample is already
filled and whose threshold is one sample flushes `[5]` on the next call and
resets the offset to 0. -/
theorem decoder_flush_witness :
    decode (fun _ => .ok []) decWitnessSt [] =
      .ok (some [5], ⟨⟨[], [], []⟩, [5], 0, 1⟩) ∧
    (([5] : List Int).take 1).length = 1 := by
  have hd : drainPages ([] ++ [] : List UInt8) = ([], [] ++ [], none) :=
    drainPages_eq_none rfl
  have h1 : packetNext ⟨([] ++ [] : List UInt8), [], []⟩ =
      .ok (none, ⟨[], [], []⟩) := by
    simp only [packetNext, hd]
    rfl
  have hloop : decodeLoop (fun _ => .ok [])
      { decWitnessSt with
        pr := { decWitnessSt.pr with data := decWitnessSt.pr.data ++ [] } } =
      .ok decWitnessSt :=
    decodeLoop_eq_none h1
  exact ⟨((decoder_flush_threshold (fun _ => .ok []) decWitnessSt
      [] decWitnessSt hloop (by decide)).1 (by decide)).1,
    by decide⟩

end Kaudio
